import Mathlib

/-!
Shallow embedding of the `fastgravity` Barnes–Hut solver (src/lib.rs,
src/vec2.rs, src/mat2.rs) over exact real arithmetic.  The Rust code works
with `f64`; here each `f64` value is modelled as a real number, so the
embedding captures the algorithmic/algebraic content of the code (the exact
arithmetic it would perform with unbounded precision).  The possibly
unbounded recursion of `make_node` is modelled with an explicit fuel
parameter: `none` stands for a run that does not finish within the given
fuel (or hits the `assert!` in `QuadInterior::new`).
-/

namespace Fastgravity

/-- `Vec2<F>` from src/vec2.rs, with `F = f64` modelled as `ℝ`. -/
@[ext]
structure Vec2 where
  x : ℝ
  y : ℝ

/-- `Vec2::zero()` / `Default::default()`: the all-zero vector. -/
def Vec2.zero : Vec2 := ⟨0, 0⟩

/-- `impl Add for Vec2` (componentwise). -/
noncomputable instance : Add Vec2 := ⟨fun a b => ⟨a.x + b.x, a.y + b.y⟩⟩

instance : Zero Vec2 := ⟨Vec2.zero⟩

@[simp] theorem Vec2.add_x (a b : Vec2) : (a + b).x = a.x + b.x := rfl
@[simp] theorem Vec2.add_y (a b : Vec2) : (a + b).y = a.y + b.y := rfl
@[simp] theorem Vec2.zero_x : (Vec2.zero).x = 0 := rfl
@[simp] theorem Vec2.zero_y : (Vec2.zero).y = 0 := rfl
@[simp] theorem Vec2.zero_vec_eq : (0 : Vec2) = Vec2.zero := rfl

noncomputable instance : AddCommMonoid Vec2 where
  add_assoc a b c := by ext <;> simp <;> ring
  zero_add a := by ext <;> simp [Vec2.zero]
  add_zero a := by ext <;> simp [Vec2.zero]
  add_comm a b := by ext <;> simp <;> ring
  nsmul := nsmulRec
  nsmul_zero _ := rfl
  nsmul_succ _ _ := rfl

/-- `impl Sub for Vec2` (componentwise). -/
noncomputable instance : Sub Vec2 := ⟨fun a b => ⟨a.x - b.x, a.y - b.y⟩⟩

@[simp] theorem Vec2.sub_x (a b : Vec2) : (a - b).x = a.x - b.x := rfl
@[simp] theorem Vec2.sub_y (a b : Vec2) : (a - b).y = a.y - b.y := rfl

/-- `impl Neg for Vec2` (componentwise). -/
noncomputable instance : Neg Vec2 := ⟨fun a => ⟨-a.x, -a.y⟩⟩

@[simp] theorem Vec2.neg_x (a : Vec2) : (-a).x = -a.x := rfl
@[simp] theorem Vec2.neg_y (a : Vec2) : (-a).y = -a.y := rfl

/-- `impl Mul<S> for Vec2`: scaling by a scalar on the right. -/
noncomputable instance : HMul Vec2 ℝ Vec2 := ⟨fun a s => ⟨a.x * s, a.y * s⟩⟩

@[simp] theorem Vec2.smul_x (a : Vec2) (s : ℝ) : (a * s).x = a.x * s := rfl
@[simp] theorem Vec2.smul_y (a : Vec2) (s : ℝ) : (a * s).y = a.y * s := rfl

/-- `impl Div<S> for Vec2`: dividing by a scalar. -/
noncomputable instance : HDiv Vec2 ℝ Vec2 := ⟨fun a s => ⟨a.x / s, a.y / s⟩⟩

@[simp] theorem Vec2.div_x (a : Vec2) (s : ℝ) : (a / s).x = a.x / s := rfl
@[simp] theorem Vec2.div_y (a : Vec2) (s : ℝ) : (a / s).y = a.y / s := rfl

/-- `Vec2::dot`. -/
noncomputable def Vec2.dot (a b : Vec2) : ℝ := a.x * b.x + a.y * b.y

/-- `Vec2::sq_len`: squared length. -/
noncomputable def Vec2.sq_len (a : Vec2) : ℝ := a.x * a.x + a.y * a.y

/-- `Vec2::norm`: Euclidean norm, `sq_len().sqrt()`. -/
noncomputable def Vec2.norm (a : Vec2) : ℝ := Real.sqrt a.sq_len

/-- `Mat2<T>` from src/mat2.rs with `T = f64` modelled as `ℝ`. -/
@[ext]
structure Mat2 where
  xx : ℝ
  xy : ℝ
  yx : ℝ
  yy : ℝ

/-- `Mat2::default()`: all components zero. -/
def Mat2.default : Mat2 := ⟨0, 0, 0, 0⟩

/-- `impl Add for Mat2` (componentwise). -/
noncomputable instance : Add Mat2 :=
  ⟨fun a b => ⟨a.xx + b.xx, a.xy + b.xy, a.yx + b.yx, a.yy + b.yy⟩⟩

instance : Zero Mat2 := ⟨Mat2.default⟩

@[simp] theorem Mat2.add_xx (a b : Mat2) : (a + b).xx = a.xx + b.xx := rfl
@[simp] theorem Mat2.add_xy (a b : Mat2) : (a + b).xy = a.xy + b.xy := rfl
@[simp] theorem Mat2.add_yx (a b : Mat2) : (a + b).yx = a.yx + b.yx := rfl
@[simp] theorem Mat2.add_yy (a b : Mat2) : (a + b).yy = a.yy + b.yy := rfl
@[simp] theorem Mat2.default_xx : (Mat2.default).xx = 0 := rfl
@[simp] theorem Mat2.default_xy : (Mat2.default).xy = 0 := rfl
@[simp] theorem Mat2.default_yx : (Mat2.default).yx = 0 := rfl
@[simp] theorem Mat2.default_yy : (Mat2.default).yy = 0 := rfl
@[simp] theorem Mat2.zero_mat_eq : (0 : Mat2) = Mat2.default := rfl

noncomputable instance : AddCommMonoid Mat2 where
  add_assoc a b c := by ext <;> simp <;> ring
  zero_add a := by ext <;> simp [Mat2.default]
  add_zero a := by ext <;> simp [Mat2.default]
  add_comm a b := by ext <;> simp <;> ring
  nsmul := nsmulRec
  nsmul_zero _ := rfl
  nsmul_succ _ _ := rfl

/-- `impl Mul<T> for Mat2`: scaling every component. -/
noncomputable instance : HMul Mat2 ℝ Mat2 :=
  ⟨fun m s => ⟨m.xx * s, m.xy * s, m.yx * s, m.yy * s⟩⟩

@[simp] theorem Mat2.smul_xx (m : Mat2) (s : ℝ) : (m * s).xx = m.xx * s := rfl
@[simp] theorem Mat2.smul_xy (m : Mat2) (s : ℝ) : (m * s).xy = m.xy * s := rfl
@[simp] theorem Mat2.smul_yx (m : Mat2) (s : ℝ) : (m * s).yx = m.yx * s := rfl
@[simp] theorem Mat2.smul_yy (m : Mat2) (s : ℝ) : (m * s).yy = m.yy * s := rfl

/-- `Mat2::eval_quadratic`: `v^T @ self @ v`. -/
noncomputable def Mat2.eval_quadratic (m : Mat2) (v : Vec2) : ℝ :=
  m.xx * v.x * v.x + m.yy * v.y * v.y + (m.xy + m.yx) * v.x * v.y

/-- `Mat2::matmul`: matrix–vector product. -/
noncomputable def Mat2.matmul (m : Mat2) (v : Vec2) : Vec2 :=
  ⟨m.xx * v.x + m.xy * v.y, m.yx * v.x + m.yy * v.y⟩

/-- `f64::hypot(a, b)` in exact arithmetic: `sqrt(a² + b²)`. -/
noncomputable def hypot (a b : ℝ) : ℝ := Real.sqrt (a * a + b * b)

/-- The gravitational constant `G` of src/lib.rs: `-1`. -/
def G : ℝ := -1

/-- `DEFAULT_ACC` of src/lib.rs: the default opening-angle threshold θ. -/
noncomputable def DEFAULT_ACC : ℝ := 0.3

/-- `Body` of src/lib.rs: a point mass. -/
structure Body where
  mass : ℝ
  pos : Vec2

/-- `to_quadrup_tensor` of src/lib.rs: `Q_{αβ} = 2 r_α r_β − δ_{αβ} r²`. -/
noncomputable def to_quadrup_tensor (r : Vec2) : Mat2 :=
  let diag := r.x * r.x - r.y * r.y
  let cross := 2 * r.x * r.y
  ⟨diag, cross, cross, -diag⟩

/-- The `QuadNode` enum of src/lib.rs, with `QuadLeaf` and `QuadInterior`
inlined into the two constructors.  `Interior` carries the four optional
children (in the source's order sw, se, nw, ne) and the stored aggregate
fields `total_mass`, `com`, `quadrupole` and the extents. -/
inductive QuadNode where
  | Leaf (body : Body)
  | Interior (sw se nw ne : Option QuadNode) (total_mass : ℝ) (com : Vec2)
      (quadrupole : Mat2) (extent_x extent_y : ℝ × ℝ)

/-- `Quad::com` (both impls): the node's monopole, `(mass, center of mass)`. -/
def QuadNode.com : QuadNode → ℝ × Vec2
  | .Leaf b => (b.mass, b.pos)
  | .Interior _ _ _ _ m c _ _ _ => (m, c)

/-- `Quad::quadrupole` (both impls). -/
def QuadNode.quadrupole : QuadNode → Mat2
  | .Leaf _ => Mat2.default
  | .Interior _ _ _ _ _ _ q _ _ => q

@[simp] theorem QuadNode.com_leaf (b : Body) : (QuadNode.Leaf b).com = (b.mass, b.pos) := rfl
@[simp] theorem QuadNode.com_interior (sw se nw ne m c q ex ey) :
    (QuadNode.Interior sw se nw ne m c q ex ey).com = (m, c) := rfl
@[simp] theorem QuadNode.quadrupole_leaf (b : Body) :
    (QuadNode.Leaf b).quadrupole = Mat2.default := rfl
@[simp] theorem QuadNode.quadrupole_interior (sw se nw ne m c q ex ey) :
    (QuadNode.Interior sw se nw ne m c q ex ey).quadrupole = q := rfl

/-- `QuadInterior::width`: the full diagonal of the bounding box. -/
noncomputable def width (extent_x extent_y : ℝ × ℝ) : ℝ :=
  hypot (extent_x.2 - extent_x.1) (extent_y.2 - extent_y.1)

/-- `QuadInterior::some_children`: the present children, in slot order. -/
def QuadNode.some_children : QuadNode → List QuadNode
  | .Leaf _ => []
  | .Interior sw se nw ne _ _ _ _ _ => [sw, se, nw, ne].filterMap id

/-- `Quad::potential_at` for both variants of `QuadNode` (dispatch of the
trait impls of `QuadLeaf` and `QuadInterior` in src/lib.rs). -/
noncomputable def QuadNode.potential_at : QuadNode → Vec2 → Bool → ℝ → ℝ
  | .Leaf b, pos, _, _ =>
    let dist := (pos - b.pos).norm
    if dist = 0 then 0 else G * b.mass / dist
  | .Interior sw se nw ne total_mass com quadrupole ex ey, pos, use_quad, accuracy =>
    let r := pos - com
    let dist := r.norm
    if 0 < dist ∧ width ex ey / dist < accuracy then
      let scalar_part := total_mass / dist
      let quadrupole_part :=
        if use_quad then (quadrupole.eval_quadratic (r / dist)) / (2 * dist ^ 3) else 0
      G * (scalar_part + quadrupole_part)
    else
      (match sw with | none => 0 | some c => c.potential_at pos use_quad accuracy)
      + (match se with | none => 0 | some c => c.potential_at pos use_quad accuracy)
      + (match nw with | none => 0 | some c => c.potential_at pos use_quad accuracy)
      + (match ne with | none => 0 | some c => c.potential_at pos use_quad accuracy)

/-- `Quad::gravity_at` for both variants of `QuadNode`. -/
noncomputable def QuadNode.gravity_at : QuadNode → Vec2 → Bool → ℝ → Vec2
  | .Leaf b, pos, _, _ =>
    let r := pos - b.pos
    let dist := r.norm
    if dist = 0 then Vec2.zero
    else
      let e := r / dist
      e * (G * b.mass / dist ^ 2)
  | .Interior sw se nw ne total_mass com quadrupole ex ey, pos, use_quad, accuracy =>
    let r := pos - com
    let dist := r.norm
    if 0 < dist ∧ width ex ey / dist < accuracy then
      let e := r / dist
      let scalar_part := e * (total_mass / dist ^ 2)
      let total :=
        if use_quad then
          let dist4 := dist ^ 4
          let quadrupole_part_1 := e * (quadrupole.eval_quadratic e * 2.5 / dist4)
          let quadrupole_part_2 := (-(quadrupole.matmul e)) / dist4
          scalar_part + quadrupole_part_1 + quadrupole_part_2
        else scalar_part
      total * G
    else
      (match sw with | none => Vec2.zero | some c => c.gravity_at pos use_quad accuracy)
      + (match se with | none => Vec2.zero | some c => c.gravity_at pos use_quad accuracy)
      + (match nw with | none => Vec2.zero | some c => c.gravity_at pos use_quad accuracy)
      + (match ne with | none => Vec2.zero | some c => c.gravity_at pos use_quad accuracy)

/-- The multiset of bodies stored at the leaves of a subtree. -/
def QuadNode.bodies : QuadNode → List Body
  | .Leaf b => [b]
  | .Interior sw se nw ne _ _ _ _ _ =>
    (match sw with | none => [] | some c => c.bodies)
    ++ (match se with | none => [] | some c => c.bodies)
    ++ (match nw with | none => [] | some c => c.bodies)
    ++ (match ne with | none => [] | some c => c.bodies)

/-- `QuadInterior::new` of src/lib.rs.  Aggregates mass, center of mass and
quadrupole over the present children in slot order; the `assert!(mass != 0.)`
is modelled by returning `none`. -/
noncomputable def QuadInterior.new (sw se nw ne : Option QuadNode)
    (extent_x extent_y : ℝ × ℝ) : Option QuadNode :=
  let cs := [sw, se, nw, ne].filterMap id
  let mass := cs.foldl (fun m c => m + c.com.1) 0
  if mass = 0 then none
  else
    let com := (cs.foldl (fun v c => v + c.com.2 * c.com.1) Vec2.zero) / mass
    let quadrupole := cs.foldl
      (fun q c => q + c.quadrupole + to_quadrup_tensor (com - c.com.2) * c.com.1)
      Mat2.default
    some (.Interior sw se nw ne mass com quadrupole extent_x extent_y)

/-- `make_node` of src/lib.rs, with a fuel parameter bounding the recursion
depth of the (in exact arithmetic possibly nonterminating) subdivision: the
outer `none` stands for running out of fuel or for the `assert!` failure in
`QuadInterior::new`; the inner option is the source's `Option<QuadNode>`
(absent child for an empty point list). -/
noncomputable def make_node : ℕ → List Body → (ℝ × ℝ) → (ℝ × ℝ) → Option (Option QuadNode)
  | _, [], _, _ => some none
  | _, [b], _, _ => some (some (.Leaf b))
  | 0, _ :: _ :: _, _, _ => none
  | fuel + 1, pts@(_ :: _ :: _), (l, r), (b, t) =>
    let div_x := (l + r) / 2
    let div_y := (b + t) / 2
    (make_node fuel (pts.filter fun p => decide (p.pos.x < div_x ∧ p.pos.y < div_y))
        (l, div_x) (b, div_y)).bind fun sw =>
    (make_node fuel (pts.filter fun p => decide (div_x ≤ p.pos.x ∧ p.pos.y < div_y))
        (div_x, r) (b, div_y)).bind fun se =>
    (make_node fuel (pts.filter fun p => decide (p.pos.x < div_x ∧ div_y ≤ p.pos.y))
        (l, div_x) (div_y, t)).bind fun nw =>
    (make_node fuel (pts.filter fun p => decide (div_x ≤ p.pos.x ∧ div_y ≤ p.pos.y))
        (div_x, r) (div_y, t)).bind fun ne =>
    (QuadInterior.new sw se nw ne (l, r) (b, t)).map some

/-- Minimum of a list of reals; corresponds to
`iter().min_by(F::total_cmp)` over a nonempty list (0 for the empty list,
which `tree_from_points` never queries). -/
noncomputable def listMin : List ℝ → ℝ
  | [] => 0
  | x :: xs => xs.foldl min x

/-- Maximum of a list of reals; corresponds to
`iter().max_by(F::total_cmp)` over a nonempty list. -/
noncomputable def listMax : List ℝ → ℝ
  | [] => 0
  | x :: xs => xs.foldl max x

/-- `tree_from_points` of src/lib.rs: computes the root extents from the
min/max coordinates and calls `make_node`; the `assert!(!pts.is_empty())`
and the final `.unwrap()` are modelled by `none`. -/
noncomputable def tree_from_points (fuel : ℕ) (pts : List Body) : Option QuadNode :=
  match pts with
  | [] => none
  | _ :: _ =>
    let extent_x := (listMin (pts.map fun b => b.pos.x), listMax (pts.map fun b => b.pos.x))
    let extent_y := (listMin (pts.map fun b => b.pos.y), listMax (pts.map fun b => b.pos.y))
    (make_node fuel pts extent_x extent_y).bind id

/-! ## An induction principle for the nested inductive `QuadNode` -/

theorem QuadNode.ind {motive : QuadNode → Prop}
    (leaf : ∀ b, motive (.Leaf b))
    (interior : ∀ sw se nw ne m c q ex ey,
      (∀ k, sw = some k → motive k) →
      (∀ k, se = some k → motive k) →
      (∀ k, nw = some k → motive k) →
      (∀ k, ne = some k → motive k) →
      motive (.Interior sw se nw ne m c q ex ey)) :
    ∀ n, motive n
  | .Leaf b => leaf b
  | .Interior sw se nw ne m c q ex ey =>
    interior sw se nw ne m c q ex ey
      (fun k hk =>
        have h : sizeOf k < sizeOf (QuadNode.Interior sw se nw ne m c q ex ey) := by
          subst hk
          simp
          omega
        QuadNode.ind leaf interior k)
      (fun k hk =>
        have h : sizeOf k < sizeOf (QuadNode.Interior sw se nw ne m c q ex ey) := by
          subst hk
          simp
          omega
        QuadNode.ind leaf interior k)
      (fun k hk =>
        have h : sizeOf k < sizeOf (QuadNode.Interior sw se nw ne m c q ex ey) := by
          subst hk
          simp
          omega
        QuadNode.ind leaf interior k)
      (fun k hk =>
        have h : sizeOf k < sizeOf (QuadNode.Interior sw se nw ne m c q ex ey) := by
          subst hk
          simp
          omega
        QuadNode.ind leaf interior k)
termination_by n => sizeOf n

/-! ## Basic facts about the algebra layer -/

/-- The norm of the zero displacement is zero. -/
theorem Vec2.norm_zero : (Vec2.zero).norm = 0 := by
  simp [Vec2.norm, Vec2.sq_len, Real.sqrt_zero]

theorem Vec2.sub_self (a : Vec2) : a - a = Vec2.zero := by
  ext <;> simp

/-- A vector's norm is nonnegative. -/
theorem Vec2.norm_nonneg (a : Vec2) : 0 ≤ a.norm := Real.sqrt_nonneg _

/-- A vector's norm is zero exactly when the vector is zero. -/
theorem Vec2.norm_eq_zero_iff (a : Vec2) : a.norm = 0 ↔ a = Vec2.zero := by
  constructor
  · intro h
    have hsq : a.sq_len = 0 := by
      have h1 : Real.sqrt a.sq_len = 0 := h
      have h2 : 0 ≤ a.sq_len := by
        have := sq_nonneg a.x
        have := sq_nonneg a.y
        simp [Vec2.sq_len]
        nlinarith
      nlinarith [Real.sq_sqrt h2, Real.sqrt_nonneg a.sq_len]
    have hxy : a.x * a.x + a.y * a.y = 0 := by simpa [Vec2.sq_len] using hsq
    have hx : a.x * a.x = 0 :=
      le_antisymm (by nlinarith [mul_self_nonneg a.y]) (mul_self_nonneg a.x)
    have hy : a.y * a.y = 0 :=
      le_antisymm (by nlinarith [mul_self_nonneg a.x]) (mul_self_nonneg a.y)
    ext <;> simp [mul_self_eq_zero.mp hx, mul_self_eq_zero.mp hy]
  · intro h
    rw [h]
    exact Vec2.norm_zero

/-- `hypot` is nonnegative. -/
theorem hypot_nonneg (a b : ℝ) : 0 ≤ hypot a b := Real.sqrt_nonneg _

/-- `width` is nonnegative. -/
theorem width_nonneg (ex ey : ℝ × ℝ) : 0 ≤ width ex ey := hypot_nonneg _ _

/-! ## Evaluation of an optional child (0 for an absent slot) -/

/-- Potential contribution of an optional child slot. -/
noncomputable def optPotential (o : Option QuadNode) (pos : Vec2) (uq : Bool) (acc : ℝ) : ℝ :=
  match o with
  | none => 0
  | some c => c.potential_at pos uq acc

/-- Gravity contribution of an optional child slot. -/
noncomputable def optGravity (o : Option QuadNode) (pos : Vec2) (uq : Bool) (acc : ℝ) : Vec2 :=
  match o with
  | none => Vec2.zero
  | some c => c.gravity_at pos uq acc

/-- Bodies stored under an optional child slot. -/
def optBodies (o : Option QuadNode) : List Body :=
  match o with
  | none => []
  | some c => c.bodies

@[simp] theorem optPotential_none (pos uq acc) : optPotential none pos uq acc = 0 := rfl
@[simp] theorem optPotential_some (c pos uq acc) :
    optPotential (some c) pos uq acc = c.potential_at pos uq acc := rfl
@[simp] theorem optGravity_none (pos uq acc) : optGravity none pos uq acc = Vec2.zero := rfl
@[simp] theorem optGravity_some (c pos uq acc) :
    optGravity (some c) pos uq acc = c.gravity_at pos uq acc := rfl
@[simp] theorem optBodies_none : optBodies none = [] := rfl
@[simp] theorem optBodies_some (c) : optBodies (some c) = c.bodies := rfl

/-! ## Unfolding lemmas for the evaluators -/

theorem QuadNode.potential_at_leaf (b : Body) (pos : Vec2) (uq : Bool) (acc : ℝ) :
    (QuadNode.Leaf b).potential_at pos uq acc =
      (if (pos - b.pos).norm = 0 then 0 else G * b.mass / (pos - b.pos).norm) := by
  simp [QuadNode.potential_at]

theorem QuadNode.gravity_at_leaf (b : Body) (pos : Vec2) (uq : Bool) (acc : ℝ) :
    (QuadNode.Leaf b).gravity_at pos uq acc =
      (if (pos - b.pos).norm = 0 then Vec2.zero
       else ((pos - b.pos) / (pos - b.pos).norm) * (G * b.mass / (pos - b.pos).norm ^ 2)) := by
  simp [QuadNode.gravity_at]

theorem QuadNode.potential_at_interior (sw se nw ne : Option QuadNode) (m : ℝ)
    (c : Vec2) (q : Mat2) (ex ey : ℝ × ℝ) (pos : Vec2) (uq : Bool) (acc : ℝ) :
    (QuadNode.Interior sw se nw ne m c q ex ey).potential_at pos uq acc =
      (if 0 < (pos - c).norm ∧ width ex ey / (pos - c).norm < acc then
        G * (m / (pos - c).norm +
          (if uq then
            q.eval_quadratic ((pos - c) / (pos - c).norm) / (2 * (pos - c).norm ^ 3)
          else 0))
      else
        optPotential sw pos uq acc + optPotential se pos uq acc
          + optPotential nw pos uq acc + optPotential ne pos uq acc) := by
  cases sw <;> cases se <;> cases nw <;> cases ne <;>
    simp [QuadNode.potential_at, optPotential]

theorem QuadNode.gravity_at_interior (sw se nw ne : Option QuadNode) (m : ℝ)
    (c : Vec2) (q : Mat2) (ex ey : ℝ × ℝ) (pos : Vec2) (uq : Bool) (acc : ℝ) :
    (QuadNode.Interior sw se nw ne m c q ex ey).gravity_at pos uq acc =
      (if 0 < (pos - c).norm ∧ width ex ey / (pos - c).norm < acc then
        ((if uq then
          ((pos - c) / (pos - c).norm) * (m / (pos - c).norm ^ 2)
            + ((pos - c) / (pos - c).norm)
              * (q.eval_quadratic ((pos - c) / (pos - c).norm) * 2.5 / (pos - c).norm ^ 4)
            + (-(q.matmul ((pos - c) / (pos - c).norm))) / (pos - c).norm ^ 4
        else ((pos - c) / (pos - c).norm) * (m / (pos - c).norm ^ 2)) : Vec2) * G
      else
        optGravity sw pos uq acc + optGravity se pos uq acc
          + optGravity nw pos uq acc + optGravity ne pos uq acc) := by
  cases sw <;> cases se <;> cases nw <;> cases ne <;>
    simp [QuadNode.gravity_at, optGravity]

theorem QuadNode.bodies_interior (sw se nw ne : Option QuadNode) (m : ℝ)
    (c : Vec2) (q : Mat2) (ex ey : ℝ × ℝ) :
    (QuadNode.Interior sw se nw ne m c q ex ey).bodies =
      optBodies sw ++ optBodies se ++ optBodies nw ++ optBodies ne := by
  cases sw <;> cases se <;> cases nw <;> cases ne <;>
    simp [QuadNode.bodies, optBodies]

@[simp] theorem QuadNode.bodies_leaf (b : Body) : (QuadNode.Leaf b).bodies = [b] := by
  simp [QuadNode.bodies]

@[simp] theorem Vec2.add_zero_right (a : Vec2) : a + Vec2.zero = a := by ext <;> simp
@[simp] theorem Vec2.add_zero_left (a : Vec2) : Vec2.zero + a = a := by ext <;> simp
@[simp] theorem Mat2.add_default_right (a : Mat2) : a + Mat2.default = a := by ext <;> simp
@[simp] theorem Mat2.add_default_left (a : Mat2) : Mat2.default + a = a := by ext <;> simp

/-- Accumulating a list into `init` one element at a time is adding the sum. -/
theorem foldl_add_eq {α M : Type _} [AddCommMonoid M] (f : α → M) :
    ∀ (l : List α) (init : M), l.foldl (fun a c => a + f c) init = init + (l.map f).sum
  | [], init => by simp
  | a :: t, init => by
    simp only [List.foldl_cons, List.map_cons, List.sum_cons]
    rw [foldl_add_eq f t (init + f a), add_assoc]

/-- As `foldl_add_eq`, for an accumulator that adds two terms per element. -/
theorem foldl_add_add_eq {α M : Type _} [AddCommMonoid M] (g h : α → M) :
    ∀ (l : List α) (init : M),
      l.foldl (fun a c => a + g c + h c) init = init + (l.map fun c => g c + h c).sum
  | [], init => by simp
  | a :: t, init => by
    simp only [List.foldl_cons, List.map_cons, List.sum_cons]
    rw [foldl_add_add_eq g h t (init + g a + h a), add_assoc, add_assoc, add_assoc]

/-- Transcribed from the spec (§4.2 step 3): `total_mass = Σ child.mass`. -/
noncomputable def specTotalMass (cs : List QuadNode) : ℝ :=
  (cs.map fun c => c.com.1).sum

/-- Transcribed from the spec (§4.2 step 3):
`center_of_mass = (Σ child.mass · child.center_of_mass) / total_mass`. -/
noncomputable def specCenterOfMass (cs : List QuadNode) : Vec2 :=
  ((cs.map fun c => c.com.2 * c.com.1).sum) / specTotalMass cs

/-- Transcribed from the spec (§4.2 step 3):
`quadrupole = Σ_child (child.quadrupole + child.mass · Q(center_of_mass − child.center_of_mass))`. -/
noncomputable def specQuadrupole (cs : List QuadNode) : Mat2 :=
  (cs.map fun c =>
    c.quadrupole + to_quadrup_tensor (specCenterOfMass cs - c.com.2) * c.com.1).sum

/-- When the opening test fails, an interior node's potential is the sum of
its present children's potentials. -/
theorem interior_potential_recurse (sw se nw ne : Option QuadNode) (m : ℝ)
    (c : Vec2) (q : Mat2) (ex ey : ℝ × ℝ) (pos : Vec2) (uq : Bool) (acc : ℝ)
    (h : ¬(0 < (pos - c).norm ∧ width ex ey / (pos - c).norm < acc)) :
    (QuadNode.Interior sw se nw ne m c q ex ey).potential_at pos uq acc =
      ((QuadNode.Interior sw se nw ne m c q ex ey).some_children.map
        (fun ch => ch.potential_at pos uq acc)).sum := by
  rw [QuadNode.potential_at_interior, if_neg h]
  cases sw <;> cases se <;> cases nw <;> cases ne <;>
    simp [QuadNode.some_children] <;> ring

/-- When the opening test fails, an interior node's gravity is the sum of
its present children's gravities. -/
theorem interior_gravity_recurse (sw se nw ne : Option QuadNode) (m : ℝ)
    (c : Vec2) (q : Mat2) (ex ey : ℝ × ℝ) (pos : Vec2) (uq : Bool) (acc : ℝ)
    (h : ¬(0 < (pos - c).norm ∧ width ex ey / (pos - c).norm < acc)) :
    (QuadNode.Interior sw se nw ne m c q ex ey).gravity_at pos uq acc =
      ((QuadNode.Interior sw se nw ne m c q ex ey).some_children.map
        (fun ch => ch.gravity_at pos uq acc)).sum := by
  rw [QuadNode.gravity_at_interior, if_neg h]
  cases sw <;> cases se <;> cases nw <;> cases ne <;>
    simp [QuadNode.some_children, add_assoc]

/-! ## Claim theorems -/

/-- C1: for every interior node, query position, `use_quadrupole` flag and
accuracy θ — with `(mass, com)` the node's monopole, `r = query − com`,
`d = |r|` and the node's width the full diagonal `hypot` of the extent
lengths — if `d > 0` and `width / d < θ` the node's potential contribution is
`G·(mass/d + [if use_quadrupole] Q.eval_quadratic(r/d)/(2d³))` and its
gravity contribution is
`G·((r/d)·mass/d² + [if use_quadrupole] ((r/d)·2.5·Q.eval_quadratic(r/d)/d⁴ − Q.matmul(r/d)/d⁴))`;
otherwise the node's contribution is exactly the sum of its present
children's contributions. -/
theorem C1_interior_node_contribution (sw se nw ne : Option QuadNode) (m : ℝ)
    (c : Vec2) (q : Mat2) (ex ey : ℝ × ℝ) (pos : Vec2) (uq : Bool) (acc : ℝ) :
    ((0 < (pos - c).norm ∧ width ex ey / (pos - c).norm < acc) →
      ((QuadNode.Interior sw se nw ne m c q ex ey).potential_at pos uq acc =
        G * (m / (pos - c).norm +
          (if uq then
            q.eval_quadratic ((pos - c) / (pos - c).norm) / (2 * (pos - c).norm ^ 3)
          else 0)) ∧
       (QuadNode.Interior sw se nw ne m c q ex ey).gravity_at pos uq acc =
        ((((pos - c) / (pos - c).norm) * (m / (pos - c).norm ^ 2) +
          (if uq then
            ((pos - c) / (pos - c).norm)
                * (2.5 * q.eval_quadratic ((pos - c) / (pos - c).norm) / (pos - c).norm ^ 4)
              - q.matmul ((pos - c) / (pos - c).norm) / (pos - c).norm ^ 4
          else Vec2.zero) : Vec2) * G))) ∧
    (¬(0 < (pos - c).norm ∧ width ex ey / (pos - c).norm < acc) →
      ((QuadNode.Interior sw se nw ne m c q ex ey).potential_at pos uq acc =
        ((QuadNode.Interior sw se nw ne m c q ex ey).some_children.map
          (fun ch => ch.potential_at pos uq acc)).sum ∧
       (QuadNode.Interior sw se nw ne m c q ex ey).gravity_at pos uq acc =
        ((QuadNode.Interior sw se nw ne m c q ex ey).some_children.map
          (fun ch => ch.gravity_at pos uq acc)).sum)) := by
  constructor
  · intro h
    constructor
    · rw [QuadNode.potential_at_interior, if_pos h]
    · rw [QuadNode.gravity_at_interior, if_pos h]
      congr 1
      cases uq
      · simp
      · ext <;> simp <;> ring
  · intro h
    exact ⟨interior_potential_recurse sw se nw ne m c q ex ey pos uq acc h,
      interior_gravity_recurse sw se nw ne m c q ex ey pos uq acc h⟩

/-- C2: an interior node built by `QuadInterior::new` from its present
children (when their masses do not sum to zero) stores `total_mass =
Σ child.mass`, `center_of_mass = (Σ child.mass · child.center_of_mass) /
total_mass`, and `quadrupole = Σ_child (child.quadrupole +
child.mass · Q(center_of_mass − child.center_of_mass))` — the
parallel-axis-theorem combination rule, with `Q = to_quadrup_tensor`. -/
theorem C2_interior_aggregation (sw se nw ne : Option QuadNode) (ex ey : ℝ × ℝ)
    (hM : specTotalMass ([sw, se, nw, ne].filterMap id) ≠ 0) :
    QuadInterior.new sw se nw ne ex ey =
      some (.Interior sw se nw ne
        (specTotalMass ([sw, se, nw, ne].filterMap id))
        (specCenterOfMass ([sw, se, nw, ne].filterMap id))
        (specQuadrupole ([sw, se, nw, ne].filterMap id)) ex ey) := by
  have hmass : ([sw, se, nw, ne].filterMap id).foldl (fun m c => m + c.com.1) 0
      = specTotalMass ([sw, se, nw, ne].filterMap id) := by
    rw [foldl_add_eq]
    simp [specTotalMass]
  have hcom : (([sw, se, nw, ne].filterMap id).foldl
        (fun v c => v + c.com.2 * c.com.1) Vec2.zero)
        / specTotalMass ([sw, se, nw, ne].filterMap id)
      = specCenterOfMass ([sw, se, nw, ne].filterMap id) := by
    rw [foldl_add_eq]
    simp [specCenterOfMass]
  have hquad : ∀ com : Vec2,
      ([sw, se, nw, ne].filterMap id).foldl
        (fun q c => q + c.quadrupole + to_quadrup_tensor (com - c.com.2) * c.com.1)
        Mat2.default
      = (([sw, se, nw, ne].filterMap id).map fun c =>
          c.quadrupole + to_quadrup_tensor (com - c.com.2) * c.com.1).sum := by
    intro com
    rw [foldl_add_add_eq]
    simp
  simp only [QuadInterior.new, hmass, hcom, hquad]
  rw [if_neg hM]
  rfl

/-- Witness for C2: two unit-mass leaves at (0,0) and (1,0) aggregate to
total mass 2, center of mass (1/2, 0), and quadrupole xx = 1/2, yy = −1/2,
xy = yx = 0. -/
theorem C2_interior_aggregation_witness :
    QuadInterior.new (some (.Leaf ⟨1, ⟨0, 0⟩⟩)) none none (some (.Leaf ⟨1, ⟨1, 0⟩⟩)) (0, 1) (0, 1)
      = some (.Interior (some (.Leaf ⟨1, ⟨0, 0⟩⟩)) none none (some (.Leaf ⟨1, ⟨1, 0⟩⟩))
          2 ⟨1/2, 0⟩ ⟨1/2, 0, 0, -1/2⟩ (0, 1) (0, 1)) := by
  have hlist : [some (QuadNode.Leaf ⟨1, ⟨0, 0⟩⟩), none, none,
      some (QuadNode.Leaf ⟨1, ⟨1, 0⟩⟩)].filterMap id
      = [QuadNode.Leaf ⟨1, ⟨0, 0⟩⟩, QuadNode.Leaf ⟨1, ⟨1, 0⟩⟩] := rfl
  have hm : specTotalMass [QuadNode.Leaf ⟨1, ⟨0, 0⟩⟩, QuadNode.Leaf ⟨1, ⟨1, 0⟩⟩] = 2 := by
    norm_num [specTotalMass]
  have hc : specCenterOfMass [QuadNode.Leaf ⟨1, ⟨0, 0⟩⟩, QuadNode.Leaf ⟨1, ⟨1, 0⟩⟩]
      = ⟨1/2, 0⟩ := by
    rw [specCenterOfMass, hm]
    ext <;> norm_num
  have hq : specQuadrupole [QuadNode.Leaf ⟨1, ⟨0, 0⟩⟩, QuadNode.Leaf ⟨1, ⟨1, 0⟩⟩]
      = ⟨1/2, 0, 0, -1/2⟩ := by
    rw [specQuadrupole]
    ext <;> norm_num [hc, to_quadrup_tensor]
  have h := C2_interior_aggregation (some (.Leaf ⟨1, ⟨0, 0⟩⟩)) none none
      (some (.Leaf ⟨1, ⟨1, 0⟩⟩)) (0, 1) (0, 1) (by rw [hlist, hm]; norm_num)
  rw [h, hlist, hm, hc, hq]

/-- C4: zero distance is never an error anywhere in evaluation: a leaf
queried exactly at its body's position (d = 0) contributes potential 0 and
the zero gravity vector; an interior node whose stored center of mass
coincides exactly with the query point (d = 0) skips the approximation
branch and recurses into the present children as the normal algorithm
dictates. -/
theorem C4_zero_distance :
    (∀ (b : Body) (uq : Bool) (acc : ℝ),
      (QuadNode.Leaf b).potential_at b.pos uq acc = 0 ∧
      (QuadNode.Leaf b).gravity_at b.pos uq acc = Vec2.zero) ∧
    (∀ (sw se nw ne : Option QuadNode) (m : ℝ) (q : Mat2) (ex ey : ℝ × ℝ)
        (pos : Vec2) (uq : Bool) (acc : ℝ),
      (QuadNode.Interior sw se nw ne m pos q ex ey).potential_at pos uq acc =
        ((QuadNode.Interior sw se nw ne m pos q ex ey).some_children.map
          (fun ch => ch.potential_at pos uq acc)).sum ∧
      (QuadNode.Interior sw se nw ne m pos q ex ey).gravity_at pos uq acc =
        ((QuadNode.Interior sw se nw ne m pos q ex ey).some_children.map
          (fun ch => ch.gravity_at pos uq acc)).sum) := by
  have hz : ∀ pos : Vec2, (pos - pos).norm = 0 := by
    intro pos
    rw [Vec2.sub_self, Vec2.norm_zero]
  constructor
  · intro b uq acc
    constructor
    · rw [QuadNode.potential_at_leaf, if_pos (hz b.pos)]
    · rw [QuadNode.gravity_at_leaf, if_pos (hz b.pos)]
  · intro sw se nw ne m q ex ey pos uq acc
    have h : ¬(0 < (pos - pos).norm ∧ width ex ey / (pos - pos).norm < acc) := by
      rintro ⟨h1, _⟩
      rw [hz pos] at h1
      exact lt_irrefl 0 h1
    exact ⟨interior_potential_recurse sw se nw ne m pos q ex ey pos uq acc h,
      interior_gravity_recurse sw se nw ne m pos q ex ey pos uq acc h⟩

/-- Summing a function over the present children, slot by slot. -/
theorem some_children_map_sum {M : Type _} [AddCommMonoid M] (f : QuadNode → M)
    (sw se nw ne : Option QuadNode) (m : ℝ) (c : Vec2) (q : Mat2) (ex ey : ℝ × ℝ) :
    ((QuadNode.Interior sw se nw ne m c q ex ey).some_children.map f).sum
      = sw.elim 0 f + se.elim 0 f + nw.elim 0 f + ne.elim 0 f := by
  cases sw <;> cases se <;> cases nw <;> cases ne <;>
    simp [QuadNode.some_children, add_assoc]

/-- C3: when the accuracy θ is ≤ 0 the opening test `width/d < θ` never
succeeds, so `potential_at` and `gravity_at` recurse into children
everywhere and the result equals the brute-force pairwise summation of the
exact per-body point-mass contributions over all bodies in the tree, for
both values of `use_quadrupole`. -/
theorem C3_nonpositive_accuracy_is_brute_force (n : QuadNode) (pos : Vec2)
    (uq : Bool) (acc : ℝ) (hacc : acc ≤ 0) :
    n.potential_at pos uq acc =
      (n.bodies.map fun b => (QuadNode.Leaf b).potential_at pos uq acc).sum ∧
    n.gravity_at pos uq acc =
      (n.bodies.map fun b => (QuadNode.Leaf b).gravity_at pos uq acc).sum := by
  induction n using QuadNode.ind with
  | leaf b => constructor <;> simp
  | interior sw se nw ne m c q ex ey ih1 ih2 ih3 ih4 =>
    have h : ¬(0 < (pos - c).norm ∧ width ex ey / (pos - c).norm < acc) := by
      rintro ⟨h1, h2⟩
      have h3 : 0 ≤ width ex ey / (pos - c).norm :=
        div_nonneg (width_nonneg ex ey) (le_of_lt h1)
      linarith
    have P1 : sw.elim (0 : ℝ) (fun ch => ch.potential_at pos uq acc)
        = ((optBodies sw).map fun b => (QuadNode.Leaf b).potential_at pos uq acc).sum := by
      cases sw with
      | none => simp
      | some k => simpa using (ih1 k rfl).1
    have P2 : se.elim (0 : ℝ) (fun ch => ch.potential_at pos uq acc)
        = ((optBodies se).map fun b => (QuadNode.Leaf b).potential_at pos uq acc).sum := by
      cases se with
      | none => simp
      | some k => simpa using (ih2 k rfl).1
    have P3 : nw.elim (0 : ℝ) (fun ch => ch.potential_at pos uq acc)
        = ((optBodies nw).map fun b => (QuadNode.Leaf b).potential_at pos uq acc).sum := by
      cases nw with
      | none => simp
      | some k => simpa using (ih3 k rfl).1
    have P4 : ne.elim (0 : ℝ) (fun ch => ch.potential_at pos uq acc)
        = ((optBodies ne).map fun b => (QuadNode.Leaf b).potential_at pos uq acc).sum := by
      cases ne with
      | none => simp
      | some k => simpa using (ih4 k rfl).1
    have G1 : sw.elim (0 : Vec2) (fun ch => ch.gravity_at pos uq acc)
        = ((optBodies sw).map fun b => (QuadNode.Leaf b).gravity_at pos uq acc).sum := by
      cases sw with
      | none => simp
      | some k => simpa using (ih1 k rfl).2
    have G2 : se.elim (0 : Vec2) (fun ch => ch.gravity_at pos uq acc)
        = ((optBodies se).map fun b => (QuadNode.Leaf b).gravity_at pos uq acc).sum := by
      cases se with
      | none => simp
      | some k => simpa using (ih2 k rfl).2
    have G3 : nw.elim (0 : Vec2) (fun ch => ch.gravity_at pos uq acc)
        = ((optBodies nw).map fun b => (QuadNode.Leaf b).gravity_at pos uq acc).sum := by
      cases nw with
      | none => simp
      | some k => simpa using (ih3 k rfl).2
    have G4 : ne.elim (0 : Vec2) (fun ch => ch.gravity_at pos uq acc)
        = ((optBodies ne).map fun b => (QuadNode.Leaf b).gravity_at pos uq acc).sum := by
      cases ne with
      | none => simp
      | some k => simpa using (ih4 k rfl).2
    constructor
    · rw [interior_potential_recurse _ _ _ _ _ _ _ _ _ _ _ _ h,
        some_children_map_sum, P1, P2, P3, P4, QuadNode.bodies_interior]
      simp [add_assoc]
    · rw [interior_gravity_recurse _ _ _ _ _ _ _ _ _ _ _ _ h,
        some_children_map_sum, G1, G2, G3, G4, QuadNode.bodies_interior]
      simp [add_assoc]

/-- Witness for C3: at θ = 0 an interior node over two coincident unit-mass
leaves evaluates, at their common position, to the brute-force sum (0 here,
by the self-interaction rule). -/
theorem C3_nonpositive_accuracy_is_brute_force_witness :
    (QuadNode.Interior (some (.Leaf ⟨1, ⟨0, 0⟩⟩)) none none (some (.Leaf ⟨1, ⟨0, 0⟩⟩))
        2 ⟨0, 0⟩ Mat2.default (0, 1) (0, 1)).potential_at ⟨0, 0⟩ true 0 = 0 := by
  have h := (C3_nonpositive_accuracy_is_brute_force
    (QuadNode.Interior (some (.Leaf ⟨1, ⟨0, 0⟩⟩)) none none (some (.Leaf ⟨1, ⟨0, 0⟩⟩))
      2 ⟨0, 0⟩ Mat2.default (0, 1) (0, 1)) ⟨0, 0⟩ true 0 (le_refl 0)).1
  rw [h, QuadNode.bodies_interior]
  simp [QuadNode.potential_at_leaf, Vec2.sub_self, Vec2.norm_zero]

/-- Counterexample to C5 as stated: from two bodies of mass −1 the
construction succeeds (the `assert!` only rejects a sum of exactly zero) and
the root interior node stores `total_mass = −2`, which is not `> 0`. -/
theorem C5_counterexample :
    tree_from_points 1 [⟨-1, ⟨0, 0⟩⟩, ⟨-1, ⟨1, 1⟩⟩]
      = some (.Interior (some (.Leaf ⟨-1, ⟨0, 0⟩⟩)) none none (some (.Leaf ⟨-1, ⟨1, 1⟩⟩))
          (-2) ⟨1/2, 1/2⟩ ⟨0, -1, -1, 0⟩ (0, 1) (0, 1)) ∧
    ¬((-2 : ℝ) > 0) := by
  constructor
  · have hx : listMin (List.map (fun b => b.pos.x) [(⟨-1, ⟨0, 0⟩⟩ : Body), ⟨-1, ⟨1, 1⟩⟩]) = 0 := by
      norm_num [listMin]
    have hX : listMax (List.map (fun b => b.pos.x) [(⟨-1, ⟨0, 0⟩⟩ : Body), ⟨-1, ⟨1, 1⟩⟩]) = 1 := by
      norm_num [listMax]
    have hy : listMin (List.map (fun b => b.pos.y) [(⟨-1, ⟨0, 0⟩⟩ : Body), ⟨-1, ⟨1, 1⟩⟩]) = 0 := by
      norm_num [listMin]
    have hY : listMax (List.map (fun b => b.pos.y) [(⟨-1, ⟨0, 0⟩⟩ : Body), ⟨-1, ⟨1, 1⟩⟩]) = 1 := by
      norm_num [listMax]
    rw [tree_from_points]
    rw [hx, hX, hy, hY]
    have hsw : List.filter
        (fun p => decide (p.pos.x < ((0 : ℝ) + 1) / 2 ∧ p.pos.y < ((0 : ℝ) + 1) / 2))
        [(⟨-1, ⟨0, 0⟩⟩ : Body), ⟨-1, ⟨1, 1⟩⟩] = [⟨-1, ⟨0, 0⟩⟩] := by
      norm_num [List.filter_cons]
    have hse : List.filter
        (fun p => decide (((0 : ℝ) + 1) / 2 ≤ p.pos.x ∧ p.pos.y < ((0 : ℝ) + 1) / 2))
        [(⟨-1, ⟨0, 0⟩⟩ : Body), ⟨-1, ⟨1, 1⟩⟩] = [] := by
      norm_num [List.filter_cons]
    have hnw : List.filter
        (fun p => decide (p.pos.x < ((0 : ℝ) + 1) / 2 ∧ ((0 : ℝ) + 1) / 2 ≤ p.pos.y))
        [(⟨-1, ⟨0, 0⟩⟩ : Body), ⟨-1, ⟨1, 1⟩⟩] = [] := by
      norm_num [List.filter_cons]
    have hne : List.filter
        (fun p => decide (((0 : ℝ) + 1) / 2 ≤ p.pos.x ∧ ((0 : ℝ) + 1) / 2 ≤ p.pos.y))
        [(⟨-1, ⟨0, 0⟩⟩ : Body), ⟨-1, ⟨1, 1⟩⟩] = [⟨-1, ⟨1, 1⟩⟩] := by
      norm_num [List.filter_cons]
    rw [make_node, hsw, hse, hnw, hne]
    rw [make_node, make_node, make_node, make_node]
    have hnew : QuadInterior.new (some (QuadNode.Leaf ⟨-1, ⟨0, 0⟩⟩)) none none
        (some (QuadNode.Leaf ⟨-1, ⟨1, 1⟩⟩)) (0, 1) (0, 1)
        = some (.Interior (some (.Leaf ⟨-1, ⟨0, 0⟩⟩)) none none (some (.Leaf ⟨-1, ⟨1, 1⟩⟩))
            (-2) ⟨1/2, 1/2⟩ ⟨0, -1, -1, 0⟩ (0, 1) (0, 1)) := by
      norm_num [QuadInterior.new, List.filterMap_cons, List.foldl_cons, List.foldl_nil]
      constructor <;> ext <;> norm_num [to_quadrup_tensor]
    simp [Option.some_bind, hnew]
  · norm_num

/-- A symmetric, traceless 2×2 tensor. -/
def Mat2.SymTraceless (m : Mat2) : Prop := m.xy = m.yx ∧ m.xx + m.yy = 0

/-- Every interior node in the subtree stores a nonzero `total_mass`. -/
def QuadNode.massesNonzero : QuadNode → Prop
  | .Leaf _ => True
  | .Interior sw se nw ne m _ _ _ _ =>
    m ≠ 0
    ∧ (match sw with | none => True | some c => c.massesNonzero)
    ∧ (match se with | none => True | some c => c.massesNonzero)
    ∧ (match nw with | none => True | some c => c.massesNonzero)
    ∧ (match ne with | none => True | some c => c.massesNonzero)

/-- Every interior node in the subtree stores a symmetric traceless
quadrupole tensor. -/
def QuadNode.quadsSymTraceless : QuadNode → Prop
  | .Leaf _ => True
  | .Interior sw se nw ne _ _ q _ _ =>
    q.SymTraceless
    ∧ (match sw with | none => True | some c => c.quadsSymTraceless)
    ∧ (match se with | none => True | some c => c.quadsSymTraceless)
    ∧ (match nw with | none => True | some c => c.quadsSymTraceless)
    ∧ (match ne with | none => True | some c => c.quadsSymTraceless)

/-- `QuadInterior::new` fails (the `assert!`) exactly when the present
children's masses sum to zero. -/
theorem QuadInterior.new_eq_none_iff (sw se nw ne : Option QuadNode) (ex ey : ℝ × ℝ) :
    QuadInterior.new sw se nw ne ex ey = none ↔
      (([sw, se, nw, ne].filterMap id).map fun c => c.com.1).sum = 0 := by
  have hm : ([sw, se, nw, ne].filterMap id).foldl (fun m c => m + c.com.1) 0
      = (([sw, se, nw, ne].filterMap id).map fun c => c.com.1).sum := by
    rw [foldl_add_eq]
    simp
  simp only [QuadInterior.new, hm]
  by_cases h : (([sw, se, nw, ne].filterMap id).map fun c => c.com.1).sum = 0
  · simp [h]
  · simp [h]

/-- Any tree that `make_node` finishes building has nonzero stored
`total_mass` at every interior node. -/
theorem make_node_massesNonzero :
    ∀ (fuel : ℕ) (pts : List Body) (ex ey : ℝ × ℝ) (n : QuadNode),
      make_node fuel pts ex ey = some (some n) → n.massesNonzero := by
  intro fuel
  induction fuel with
  | zero =>
    intro pts ex ey n h
    match pts with
    | [] => simp [make_node] at h
    | [b] =>
      simp [make_node] at h
      subst h
      trivial
    | _ :: _ :: _ => simp [make_node] at h
  | succ fuel ih =>
    intro pts ex ey n h
    match pts with
    | [] => simp [make_node] at h
    | [b] =>
      simp [make_node] at h
      subst h
      trivial
    | p1 :: p2 :: rest =>
      obtain ⟨l, r⟩ := ex
      obtain ⟨bb, t⟩ := ey
      rw [make_node] at h
      simp only [Option.bind_eq_some] at h
      obtain ⟨sw, hsw, h⟩ := h
      obtain ⟨se, hse, h⟩ := h
      obtain ⟨nw, hnw, h⟩ := h
      obtain ⟨ne, hne, h⟩ := h
      rw [Option.map_eq_some'] at h
      obtain ⟨n0, hn0, heq⟩ := h
      have hn : n0 = n := by injection heq
      subst hn
      simp only [QuadInterior.new] at hn0
      by_cases hz : ([sw, se, nw, ne].filterMap id).foldl (fun m c => m + c.com.1) 0 = 0
      · rw [if_pos hz] at hn0
        exact absurd hn0 (by simp)
      · rw [if_neg hz] at hn0
        have hn0' := Option.some.inj hn0
        subst hn0'
        unfold QuadNode.massesNonzero
        refine ⟨hz, ?_, ?_, ?_, ?_⟩
        · cases hc : sw with
          | none => trivial
          | some c =>
            subst hc
            exact ih _ _ _ c hsw
        · cases hc : se with
          | none => trivial
          | some c =>
            subst hc
            exact ih _ _ _ c hse
        · cases hc : nw with
          | none => trivial
          | some c =>
            subst hc
            exact ih _ _ _ c hnw
        · cases hc : ne with
          | none => trivial
          | some c =>
            subst hc
            exact ih _ _ _ c hne

/-- C5, amended: every interior node of a constructed tree satisfies
`total_mass ≠ 0` (not `> 0`: negative masses pass the `assert!`), and a
spatial partition whose children's masses sum to exactly zero is a fatal
construction error — `QuadInterior::new` fails exactly then. -/
theorem C5_total_mass_nonzero :
    (∀ (sw se nw ne : Option QuadNode) (ex ey : ℝ × ℝ),
      QuadInterior.new sw se nw ne ex ey = none ↔
        (([sw, se, nw, ne].filterMap id).map fun c => c.com.1).sum = 0) ∧
    (∀ (fuel : ℕ) (pts : List Body) (n : QuadNode),
      tree_from_points fuel pts = some n → n.massesNonzero) := by
  refine ⟨QuadInterior.new_eq_none_iff, ?_⟩
  intro fuel pts n h
  match pts with
  | [] => simp [tree_from_points] at h
  | p :: ps =>
    rw [tree_from_points] at h
    simp only [Option.bind_eq_some, id_eq] at h
    obtain ⟨r, hr, hid⟩ := h
    subst hid
    exact make_node_massesNonzero fuel (p :: ps) _ _ n hr

/-- `Mat2::default()` is symmetric and traceless. -/
theorem Mat2.default_symTraceless : (Mat2.default).SymTraceless := by
  constructor <;> norm_num [Mat2.SymTraceless]

/-- `to_quadrup_tensor` always produces a symmetric traceless tensor. -/
theorem to_quadrup_tensor_symTraceless (r : Vec2) : (to_quadrup_tensor r).SymTraceless := by
  constructor <;> simp [Mat2.SymTraceless, to_quadrup_tensor]

/-- Symmetric traceless tensors are closed under addition. -/
theorem Mat2.SymTraceless.add {A B : Mat2} (hA : A.SymTraceless) (hB : B.SymTraceless) :
    (A + B).SymTraceless := by
  obtain ⟨hA1, hA2⟩ := hA
  obtain ⟨hB1, hB2⟩ := hB
  constructor
  · simp [hA1, hB1]
  · simp only [Mat2.add_xx, Mat2.add_yy]
    linarith

/-- Symmetric traceless tensors are closed under scalar multiplication. -/
theorem Mat2.SymTraceless.smul {A : Mat2} (hA : A.SymTraceless) (s : ℝ) :
    (A * s).SymTraceless := by
  obtain ⟨hA1, hA2⟩ := hA
  constructor
  · simp [hA1]
  · simp only [Mat2.smul_xx, Mat2.smul_yy]
    have h : A.xx * s + A.yy * s = (A.xx + A.yy) * s := by ring
    rw [h, hA2, zero_mul]

/-- The quadrupole accumulation loop of `QuadInterior::new` preserves
symmetry and tracelessness. -/
theorem foldl_quad_symTraceless (com : Vec2) :
    ∀ (cs : List QuadNode) (init : Mat2), init.SymTraceless →
      (∀ c ∈ cs, (c.quadrupole).SymTraceless) →
      (cs.foldl (fun q c => q + c.quadrupole + to_quadrup_tensor (com - c.com.2) * c.com.1)
        init).SymTraceless
  | [], init, hinit, _ => hinit
  | c :: cs, init, hinit, hc => by
    rw [List.foldl_cons]
    exact foldl_quad_symTraceless com cs _
      (((hinit.add (hc c (by simp))).add
        ((to_quadrup_tensor_symTraceless _).smul _)))
      (fun k hk => hc k (by simp [hk]))

/-- A tree whose interior quadrupoles are all symmetric traceless has a
symmetric traceless `quadrupole` accessor. -/
theorem quadrupole_symTraceless_of_quadsSymTraceless (n : QuadNode)
    (h : n.quadsSymTraceless) : (n.quadrupole).SymTraceless := by
  cases n with
  | Leaf b => exact Mat2.default_symTraceless
  | Interior sw se nw ne m c q ex ey =>
    unfold QuadNode.quadsSymTraceless at h
    exact h.1

/-- Any tree that `make_node` finishes building stores symmetric traceless
quadrupole tensors at every interior node. -/
theorem make_node_quadsSymTraceless :
    ∀ (fuel : ℕ) (pts : List Body) (ex ey : ℝ × ℝ) (n : QuadNode),
      make_node fuel pts ex ey = some (some n) → n.quadsSymTraceless := by
  intro fuel
  induction fuel with
  | zero =>
    intro pts ex ey n h
    match pts with
    | [] => simp [make_node] at h
    | [b] =>
      simp [make_node] at h
      subst h
      trivial
    | _ :: _ :: _ => simp [make_node] at h
  | succ fuel ih =>
    intro pts ex ey n h
    match pts with
    | [] => simp [make_node] at h
    | [b] =>
      simp [make_node] at h
      subst h
      trivial
    | p1 :: p2 :: rest =>
      obtain ⟨l, r⟩ := ex
      obtain ⟨bb, t⟩ := ey
      rw [make_node] at h
      simp only [Option.bind_eq_some] at h
      obtain ⟨sw, hsw, h⟩ := h
      obtain ⟨se, hse, h⟩ := h
      obtain ⟨nw, hnw, h⟩ := h
      obtain ⟨ne, hne, h⟩ := h
      rw [Option.map_eq_some'] at h
      obtain ⟨n0, hn0, heq⟩ := h
      have hn : n0 = n := by injection heq
      subst hn
      simp only [QuadInterior.new] at hn0
      by_cases hz : ([sw, se, nw, ne].filterMap id).foldl (fun m c => m + c.com.1) 0 = 0
      · rw [if_pos hz] at hn0
        exact absurd hn0 (by simp)
      · rw [if_neg hz] at hn0
        have hn0' := Option.some.inj hn0
        subst hn0'
        have hkids : ∀ c ∈ [sw, se, nw, ne].filterMap id, (c.quadrupole).SymTraceless := by
          intro c hc
          rw [List.mem_filterMap] at hc
          obtain ⟨o, ho, hoc⟩ := hc
          rw [id_eq] at hoc
          subst hoc
          simp only [List.mem_cons, List.mem_singleton, List.not_mem_nil, or_false] at ho
          rcases ho with ho | ho | ho | ho
          · exact quadrupole_symTraceless_of_quadsSymTraceless c (ih _ _ _ c (ho ▸ hsw))
          · exact quadrupole_symTraceless_of_quadsSymTraceless c (ih _ _ _ c (ho ▸ hse))
          · exact quadrupole_symTraceless_of_quadsSymTraceless c (ih _ _ _ c (ho ▸ hnw))
          · exact quadrupole_symTraceless_of_quadsSymTraceless c (ih _ _ _ c (ho ▸ hne))
        unfold QuadNode.quadsSymTraceless
        refine ⟨foldl_quad_symTraceless _ _ _ Mat2.default_symTraceless hkids, ?_, ?_, ?_, ?_⟩
        · cases hc : sw with
          | none => trivial
          | some c =>
            subst hc
            exact ih _ _ _ c hsw
        · cases hc : se with
          | none => trivial
          | some c =>
            subst hc
            exact ih _ _ _ c hse
        · cases hc : nw with
          | none => trivial
          | some c =>
            subst hc
            exact ih _ _ _ c hnw
        · cases hc : ne with
          | none => trivial
          | some c =>
            subst hc
            exact ih _ _ _ c hne

/-- C6: every quadrupole tensor that arises in the system — a leaf's
quadrupole, every `to_quadrup_tensor` contribution, and every interior
node's accumulated quadrupole in a constructed tree — is symmetric
(xy = yx) and traceless (xx + yy = 0), and this is preserved under the
scalar multiplication and pairwise addition used during aggregation. -/
theorem C6_quadrupoles_symmetric_traceless :
    (∀ b : Body, ((QuadNode.Leaf b).quadrupole).SymTraceless) ∧
    (∀ r : Vec2, (to_quadrup_tensor r).SymTraceless) ∧
    (∀ A B : Mat2, A.SymTraceless → B.SymTraceless → (A + B).SymTraceless) ∧
    (∀ (A : Mat2) (s : ℝ), A.SymTraceless → (A * s).SymTraceless) ∧
    (∀ (fuel : ℕ) (pts : List Body) (n : QuadNode),
      tree_from_points fuel pts = some n → n.quadsSymTraceless) := by
  refine ⟨fun b => Mat2.default_symTraceless, to_quadrup_tensor_symTraceless,
    fun A B hA hB => hA.add hB, fun A s hA => hA.smul s, ?_⟩
  intro fuel pts n h
  match pts with
  | [] => simp [tree_from_points] at h
  | p :: ps =>
    rw [tree_from_points] at h
    simp only [Option.bind_eq_some, id_eq] at h
    obtain ⟨r, hr, hid⟩ := h
    subst hid
    exact make_node_quadsSymTraceless fuel (p :: ps) _ _ n hr

/-- The difference of two vectors vanishes only for equal vectors. -/
theorem Vec2.sub_eq_zero_iff (a b : Vec2) : a - b = Vec2.zero ↔ a = b := by
  constructor
  · intro h
    have hx := congrArg Vec2.x h
    have hy := congrArg Vec2.y h
    simp only [Vec2.sub_x, Vec2.sub_y, Vec2.zero_x, Vec2.zero_y] at hx hy
    ext
    · linarith
    · linarith
  · intro h
    subst h
    exact Vec2.sub_self a

/-- C8: construction from exactly one body yields a single `Leaf` wrapping
that body (and the empty input is rejected); the leaf's potential at the
body's own position is 0, and at any other query point q the evaluation is
the closed-form point-mass formula — potential `G·m/d`, gravity
`(r/d)·(G·m/d²)` — independent of `use_quadrupole` and θ. -/
theorem C8_single_body :
    (∀ (fuel : ℕ) (b : Body), tree_from_points fuel [b] = some (.Leaf b)) ∧
    (∀ fuel : ℕ, tree_from_points fuel [] = none) ∧
    (∀ (b : Body) (uq : Bool) (acc : ℝ),
      (QuadNode.Leaf b).potential_at b.pos uq acc = 0) ∧
    (∀ (b : Body) (q : Vec2) (uq : Bool) (acc : ℝ), q ≠ b.pos →
      (QuadNode.Leaf b).potential_at q uq acc = G * b.mass / (q - b.pos).norm ∧
      (QuadNode.Leaf b).gravity_at q uq acc =
        ((q - b.pos) / (q - b.pos).norm) * (G * b.mass / (q - b.pos).norm ^ 2)) := by
  refine ⟨?_, ?_, ?_, ?_⟩
  · intro fuel b
    rw [tree_from_points]
    simp [make_node]
  · intro fuel
    rw [tree_from_points]
  · intro b uq acc
    rw [QuadNode.potential_at_leaf]
    rw [if_pos (by rw [Vec2.sub_self, Vec2.norm_zero])]
  · intro b q uq acc hq
    have hd : ¬((q - b.pos).norm = 0) := by
      intro h0
      exact hq ((Vec2.sub_eq_zero_iff q b.pos).mp ((Vec2.norm_eq_zero_iff _).mp h0))
    constructor
    · rw [QuadNode.potential_at_leaf, if_neg hd]
    · rw [QuadNode.gravity_at_leaf, if_neg hd]

/-- The four quadrant filters split a list of bodies into four parts whose
multisets add back up to the whole list. -/
theorem filter_quadrants_multiset (dx dy : ℝ) :
    ∀ l : List Body,
      (Multiset.ofList (l.filter fun p => decide (p.pos.x < dx ∧ p.pos.y < dy)))
      + (Multiset.ofList (l.filter fun p => decide (dx ≤ p.pos.x ∧ p.pos.y < dy)))
      + (Multiset.ofList (l.filter fun p => decide (p.pos.x < dx ∧ dy ≤ p.pos.y)))
      + (Multiset.ofList (l.filter fun p => decide (dx ≤ p.pos.x ∧ dy ≤ p.pos.y)))
      = Multiset.ofList l
  | [] => by simp
  | a :: l => by
    have ih := filter_quadrants_multiset dx dy l
    rcases lt_or_le a.pos.x dx with hx | hx <;> rcases lt_or_le a.pos.y dy with hy | hy
    · have hx2 := not_le.mpr hx
      have hy2 := not_le.mpr hy
      simp only [List.filter_cons]
      simp [hx, hy, hx2, hy2, ← Multiset.cons_coe, Multiset.cons_add, Multiset.add_cons]
      simpa using ih
    · have hx2 := not_le.mpr hx
      have hy2 := not_lt.mpr hy
      simp only [List.filter_cons]
      simp [hx, hy, hx2, hy2, ← Multiset.cons_coe, Multiset.cons_add, Multiset.add_cons]
      simpa using ih
    · have hx2 := not_lt.mpr hx
      have hy2 := not_le.mpr hy
      simp only [List.filter_cons]
      simp [hx, hy, hx2, hy2, ← Multiset.cons_coe, Multiset.cons_add, Multiset.add_cons]
      simpa using ih
    · have hx2 := not_lt.mpr hx
      have hy2 := not_lt.mpr hy
      simp only [List.filter_cons]
      simp [hx, hy, hx2, hy2, ← Multiset.cons_coe, Multiset.cons_add, Multiset.add_cons]
      simpa using ih

/-- The bodies at the leaves of any tree `make_node` builds are exactly the
input bodies, as a multiset. -/
theorem make_node_bodies :
    ∀ (fuel : ℕ) (pts : List Body) (ex ey : ℝ × ℝ) (r : Option QuadNode),
      make_node fuel pts ex ey = some r →
        Multiset.ofList (optBodies r) = Multiset.ofList pts := by
  intro fuel
  induction fuel with
  | zero =>
    intro pts ex ey r h
    match pts with
    | [] =>
      simp only [make_node, Option.some.injEq] at h
      subst h
      simp
    | [b] =>
      simp only [make_node, Option.some.injEq] at h
      subst h
      simp
    | _ :: _ :: _ => simp [make_node] at h
  | succ fuel ih =>
    intro pts ex ey r h
    match pts with
    | [] =>
      simp only [make_node, Option.some.injEq] at h
      subst h
      simp
    | [b] =>
      simp only [make_node, Option.some.injEq] at h
      subst h
      simp
    | p1 :: p2 :: rest =>
      obtain ⟨l, rr⟩ := ex
      obtain ⟨bb, t⟩ := ey
      rw [make_node] at h
      simp only [Option.bind_eq_some] at h
      obtain ⟨sw, hsw, h⟩ := h
      obtain ⟨se, hse, h⟩ := h
      obtain ⟨nw, hnw, h⟩ := h
      obtain ⟨ne, hne, h⟩ := h
      rw [Option.map_eq_some'] at h
      obtain ⟨n0, hn0, heq⟩ := h
      subst heq
      simp only [QuadInterior.new] at hn0
      by_cases hz : ([sw, se, nw, ne].filterMap id).foldl (fun m c => m + c.com.1) 0 = 0
      · rw [if_pos hz] at hn0
        exact absurd hn0 (by simp)
      · rw [if_neg hz] at hn0
        have hn0' := Option.some.inj hn0
        subst hn0'
        rw [optBodies_some, QuadNode.bodies_interior]
        have h1 := ih _ (l, (l + rr) / 2) (bb, (bb + t) / 2) sw hsw
        have h2 := ih _ ((l + rr) / 2, rr) (bb, (bb + t) / 2) se hse
        have h3 := ih _ (l, (l + rr) / 2) ((bb + t) / 2, t) nw hnw
        have h4 := ih _ ((l + rr) / 2, rr) ((bb + t) / 2, t) ne hne
        calc Multiset.ofList (optBodies sw ++ optBodies se ++ optBodies nw ++ optBodies ne)
            = Multiset.ofList (optBodies sw) + Multiset.ofList (optBodies se)
              + Multiset.ofList (optBodies nw) + Multiset.ofList (optBodies ne) := by
              simp [← Multiset.coe_add, add_assoc]
          _ = Multiset.ofList (p1 :: p2 :: rest) := by
              rw [h1, h2, h3, h4]
              exact filter_quadrants_multiset ((l + rr) / 2) ((bb + t) / 2) (p1 :: p2 :: rest)

/-- C10 (implicit): in `make_node`'s subdivision the four quadrant
predicates (`x < midX` vs `midX ≤ x` crossed with `y < midY` vs `midY ≤ y`)
are mutually exclusive and — in the exact-real embedding, where every
coordinate is comparable with the midpoints — exhaustive, so each input body
is passed to exactly one recursive call and the multiset of bodies at the
leaves of any tree `make_node` builds equals the input multiset. -/
theorem C10_quadrants_partition :
    (∀ (div_x div_y : ℝ) (b : Body),
      ((b.pos.x < div_x ∧ b.pos.y < div_y) ∨ (div_x ≤ b.pos.x ∧ b.pos.y < div_y) ∨
       (b.pos.x < div_x ∧ div_y ≤ b.pos.y) ∨ (div_x ≤ b.pos.x ∧ div_y ≤ b.pos.y)) ∧
      ¬((b.pos.x < div_x ∧ b.pos.y < div_y) ∧ (div_x ≤ b.pos.x ∧ b.pos.y < div_y)) ∧
      ¬((b.pos.x < div_x ∧ b.pos.y < div_y) ∧ (b.pos.x < div_x ∧ div_y ≤ b.pos.y)) ∧
      ¬((b.pos.x < div_x ∧ b.pos.y < div_y) ∧ (div_x ≤ b.pos.x ∧ div_y ≤ b.pos.y)) ∧
      ¬((div_x ≤ b.pos.x ∧ b.pos.y < div_y) ∧ (b.pos.x < div_x ∧ div_y ≤ b.pos.y)) ∧
      ¬((div_x ≤ b.pos.x ∧ b.pos.y < div_y) ∧ (div_x ≤ b.pos.x ∧ div_y ≤ b.pos.y)) ∧
      ¬((b.pos.x < div_x ∧ div_y ≤ b.pos.y) ∧ (div_x ≤ b.pos.x ∧ div_y ≤ b.pos.y))) ∧
    (∀ (fuel : ℕ) (pts : List Body) (ex ey : ℝ × ℝ) (r : Option QuadNode),
      make_node fuel pts ex ey = some r →
        Multiset.ofList (optBodies r) = Multiset.ofList pts) := by
  constructor
  · intro dx dy b
    rcases lt_or_le b.pos.x dx with hx | hx <;> rcases lt_or_le b.pos.y dy with hy | hy <;>
      refine ⟨by tauto, ?_, ?_, ?_, ?_, ?_, ?_⟩ <;>
      rintro ⟨⟨h1, h2⟩, h3, h4⟩ <;> linarith
  · exact make_node_bodies

/-! ## Translation invariance (C9) -/

/-- Shifting a body by a fixed translation vector. -/
noncomputable def Body.translate (t : Vec2) (b : Body) : Body := ⟨b.mass, b.pos + t⟩

@[simp] theorem Body.translate_mass (t : Vec2) (b : Body) :
    (Body.translate t b).mass = b.mass := rfl
@[simp] theorem Body.translate_pos (t : Vec2) (b : Body) :
    (Body.translate t b).pos = b.pos + t := rfl

/-- Shifting a whole tree by a fixed translation vector: every stored
position (body positions, centers of mass, extents) moves by `t`; masses and
quadrupoles are unchanged. -/
noncomputable def QuadNode.translate (t : Vec2) : QuadNode → QuadNode
  | .Leaf b => .Leaf (Body.translate t b)
  | .Interior sw se nw ne m c q ex ey =>
    .Interior
      (match sw with | none => none | some k => some (k.translate t))
      (match se with | none => none | some k => some (k.translate t))
      (match nw with | none => none | some k => some (k.translate t))
      (match ne with | none => none | some k => some (k.translate t))
      m (c + t) q (ex.1 + t.x, ex.2 + t.x) (ey.1 + t.y, ey.2 + t.y)

@[simp] theorem QuadNode.translate_leaf (t : Vec2) (b : Body) :
    QuadNode.translate t (.Leaf b) = .Leaf (Body.translate t b) := by
  rw [QuadNode.translate]

theorem QuadNode.translate_interior (t : Vec2) (sw se nw ne : Option QuadNode)
    (m : ℝ) (c : Vec2) (q : Mat2) (ex ey : ℝ × ℝ) :
    QuadNode.translate t (.Interior sw se nw ne m c q ex ey) =
      .Interior (sw.map (QuadNode.translate t)) (se.map (QuadNode.translate t))
        (nw.map (QuadNode.translate t)) (ne.map (QuadNode.translate t))
        m (c + t) q (ex.1 + t.x, ex.2 + t.x) (ey.1 + t.y, ey.2 + t.y) := by
  cases sw <;> cases se <;> cases nw <;> cases ne <;> simp [QuadNode.translate]

/-- Translating a tree preserves its monopole mass and shifts its center. -/
theorem QuadNode.translate_com (t : Vec2) (n : QuadNode) :
    (QuadNode.translate t n).com = (n.com.1, n.com.2 + t) := by
  cases n with
  | Leaf b => rw [QuadNode.translate_leaf]; rfl
  | Interior sw se nw ne m c q ex ey => rw [QuadNode.translate_interior]; rfl

/-- Translating a tree preserves every stored quadrupole. -/
theorem QuadNode.translate_quadrupole (t : Vec2) (n : QuadNode) :
    (QuadNode.translate t n).quadrupole = n.quadrupole := by
  cases n with
  | Leaf b => rw [QuadNode.translate_leaf]; rfl
  | Interior sw se nw ne m c q ex ey => rw [QuadNode.translate_interior]; rfl

/-- Widths are translation invariant. -/
theorem width_translate (t : Vec2) (ex ey : ℝ × ℝ) :
    width (ex.1 + t.x, ex.2 + t.x) (ey.1 + t.y, ey.2 + t.y) = width ex ey := by
  simp only [width, hypot]
  ring_nf

/-- Displacements are translation invariant. -/
theorem sub_translate (pos c t : Vec2) : (pos + t) - (c + t) = pos - c := by
  ext <;> simp

/-- `potential_at` is translation invariant. -/
theorem potential_at_translate (t : Vec2) :
    ∀ (n : QuadNode) (pos : Vec2) (uq : Bool) (acc : ℝ),
      (QuadNode.translate t n).potential_at (pos + t) uq acc = n.potential_at pos uq acc := by
  intro n
  induction n using QuadNode.ind with
  | leaf b =>
    intro pos uq acc
    rw [QuadNode.translate_leaf, QuadNode.potential_at_leaf, QuadNode.potential_at_leaf,
      Body.translate_pos, sub_translate, Body.translate_mass]
  | interior sw se nw ne m c q ex ey ih1 ih2 ih3 ih4 =>
    intro pos uq acc
    rw [QuadNode.translate_interior, QuadNode.potential_at_interior,
      QuadNode.potential_at_interior, sub_translate, width_translate]
    by_cases hcond : 0 < (pos - c).norm ∧ width ex ey / (pos - c).norm < acc
    · rw [if_pos hcond, if_pos hcond]
    · rw [if_neg hcond, if_neg hcond]
      have h1 : optPotential (sw.map (QuadNode.translate t)) (pos + t) uq acc
          = optPotential sw pos uq acc := by
        cases sw with
        | none => rfl
        | some k => simpa using ih1 k rfl pos uq acc
      have h2 : optPotential (se.map (QuadNode.translate t)) (pos + t) uq acc
          = optPotential se pos uq acc := by
        cases se with
        | none => rfl
        | some k => simpa using ih2 k rfl pos uq acc
      have h3 : optPotential (nw.map (QuadNode.translate t)) (pos + t) uq acc
          = optPotential nw pos uq acc := by
        cases nw with
        | none => rfl
        | some k => simpa using ih3 k rfl pos uq acc
      have h4 : optPotential (ne.map (QuadNode.translate t)) (pos + t) uq acc
          = optPotential ne pos uq acc := by
        cases ne with
        | none => rfl
        | some k => simpa using ih4 k rfl pos uq acc
      rw [h1, h2, h3, h4]

/-- `gravity_at` is translation invariant. -/
theorem gravity_at_translate (t : Vec2) :
    ∀ (n : QuadNode) (pos : Vec2) (uq : Bool) (acc : ℝ),
      (QuadNode.translate t n).gravity_at (pos + t) uq acc = n.gravity_at pos uq acc := by
  intro n
  induction n using QuadNode.ind with
  | leaf b =>
    intro pos uq acc
    rw [QuadNode.translate_leaf, QuadNode.gravity_at_leaf, QuadNode.gravity_at_leaf,
      Body.translate_pos, sub_translate, Body.translate_mass]
  | interior sw se nw ne m c q ex ey ih1 ih2 ih3 ih4 =>
    intro pos uq acc
    rw [QuadNode.translate_interior, QuadNode.gravity_at_interior,
      QuadNode.gravity_at_interior, sub_translate, width_translate]
    by_cases hcond : 0 < (pos - c).norm ∧ width ex ey / (pos - c).norm < acc
    · rw [if_pos hcond, if_pos hcond]
    · rw [if_neg hcond, if_neg hcond]
      have h1 : optGravity (sw.map (QuadNode.translate t)) (pos + t) uq acc
          = optGravity sw pos uq acc := by
        cases sw with
        | none => rfl
        | some k => simpa using ih1 k rfl pos uq acc
      have h2 : optGravity (se.map (QuadNode.translate t)) (pos + t) uq acc
          = optGravity se pos uq acc := by
        cases se with
        | none => rfl
        | some k => simpa using ih2 k rfl pos uq acc
      have h3 : optGravity (nw.map (QuadNode.translate t)) (pos + t) uq acc
          = optGravity nw pos uq acc := by
        cases nw with
        | none => rfl
        | some k => simpa using ih3 k rfl pos uq acc
      have h4 : optGravity (ne.map (QuadNode.translate t)) (pos + t) uq acc
          = optGravity ne pos uq acc := by
        cases ne with
        | none => rfl
        | some k => simpa using ih4 k rfl pos uq acc
      rw [h1, h2, h3, h4]

@[simp] theorem QuadNode.translate_com_mass (t : Vec2) (n : QuadNode) :
    (QuadNode.translate t n).com.1 = n.com.1 := by rw [QuadNode.translate_com]

@[simp] theorem QuadNode.translate_com_pos (t : Vec2) (n : QuadNode) :
    (QuadNode.translate t n).com.2 = n.com.2 + t := by rw [QuadNode.translate_com]

/-- Scaling distributes over a shifted vector. -/
theorem vec_add_smul (a t : Vec2) (s : ℝ) : (a + t) * s = a * s + t * s := by
  ext <;> simp <;> ring

/-- A common factor moves out of a vector sum. -/
theorem map_smul_sum {α : Type _} (t : Vec2) (f : α → ℝ) :
    ∀ l : List α, (l.map fun c => t * f c).sum = t * (l.map f).sum
  | [] => by ext <;> simp
  | c :: l => by
    simp only [List.map_cons, List.sum_cons, map_smul_sum t f l]
    ext <;> simp <;> ring

/-- `QuadInterior::new` commutes with translating the children and extents. -/
theorem QuadInterior.new_translate (t : Vec2) (sw se nw ne : Option QuadNode)
    (ex ey : ℝ × ℝ) :
    QuadInterior.new (sw.map (QuadNode.translate t)) (se.map (QuadNode.translate t))
        (nw.map (QuadNode.translate t)) (ne.map (QuadNode.translate t))
        (ex.1 + t.x, ex.2 + t.x) (ey.1 + t.y, ey.2 + t.y)
      = (QuadInterior.new sw se nw ne ex ey).map (QuadNode.translate t) := by
  have hcs : [sw.map (QuadNode.translate t), se.map (QuadNode.translate t),
      nw.map (QuadNode.translate t), ne.map (QuadNode.translate t)].filterMap id
      = ([sw, se, nw, ne].filterMap id).map (QuadNode.translate t) := by
    cases sw <;> cases se <;> cases nw <;> cases ne <;> simp
  simp only [QuadInterior.new, hcs]
  rw [List.foldl_map, List.foldl_map, List.foldl_map]
  have hmassf : (fun (m : ℝ) (c : QuadNode) => m + (QuadNode.translate t c).com.1)
      = fun m c => m + c.com.1 := by
    funext m c
    rw [QuadNode.translate_com_mass]
  rw [hmassf]
  set cs := [sw, se, nw, ne].filterMap id with hcsdef
  set M := cs.foldl (fun m c => m + c.com.1) 0 with hMdef
  by_cases hz : M = 0
  · rw [if_pos hz, if_pos hz, Option.map_none']
  · rw [if_neg hz, if_neg hz, Option.map_some']
    have hMsum : M = (cs.map fun c => c.com.1).sum := by
      rw [hMdef, foldl_add_eq, zero_add]
    have hcom : cs.foldl (fun v c => v + (QuadNode.translate t c).com.2
          * (QuadNode.translate t c).com.1) Vec2.zero / M
        = cs.foldl (fun v c => v + c.com.2 * c.com.1) Vec2.zero / M + t := by
      have h1 : (fun (v : Vec2) (c : QuadNode) => v + (QuadNode.translate t c).com.2
            * (QuadNode.translate t c).com.1)
          = fun v c => v + (c.com.2 * c.com.1 + t * c.com.1) := by
        funext v c
        rw [QuadNode.translate_com_mass, QuadNode.translate_com_pos, vec_add_smul]
      rw [h1, foldl_add_eq, foldl_add_eq, List.sum_map_add, map_smul_sum, ← hMsum]
      ext
      · simp
        field_simp
      · simp
        field_simp
    rw [hcom]
    rw [QuadNode.translate_interior]
    have hquadf : (fun (q : Mat2) (c : QuadNode) => q + (QuadNode.translate t c).quadrupole
          + to_quadrup_tensor
              ((cs.foldl (fun v k => v + k.com.2 * k.com.1) Vec2.zero / M + t)
                - (QuadNode.translate t c).com.2)
            * (QuadNode.translate t c).com.1)
        = fun q c => q + c.quadrupole
          + to_quadrup_tensor
              (cs.foldl (fun v k => v + k.com.2 * k.com.1) Vec2.zero / M - c.com.2)
            * c.com.1 := by
      funext qq c
      rw [QuadNode.translate_com_mass, QuadNode.translate_com_pos,
        QuadNode.translate_quadrupole, sub_translate]
    rw [hquadf]
/-- `QuadInterior.new_translate`, stated on unpacked extents. -/
theorem QuadInterior.new_translate4 (t : Vec2) (sw se nw ne : Option QuadNode)
    (x0 x1 y0 y1 : ℝ) :
    QuadInterior.new (sw.map (QuadNode.translate t)) (se.map (QuadNode.translate t))
        (nw.map (QuadNode.translate t)) (ne.map (QuadNode.translate t))
        (x0 + t.x, x1 + t.x) (y0 + t.y, y1 + t.y)
      = (QuadInterior.new sw se nw ne (x0, x1) (y0, y1)).map (QuadNode.translate t) :=
  QuadInterior.new_translate t sw se nw ne (x0, x1) (y0, y1)

theorem opt_map_bind {α β γ : Type _} (o : Option α) (f : α → β) (g : β → Option γ) :
    (o.map f).bind g = o.bind fun a => g (f a) := by cases o <;> rfl

theorem opt_bind_map {α β γ : Type _} (o : Option α) (f : α → Option β) (g : β → γ) :
    (o.bind f).map g = o.bind fun a => (f a).map g := by cases o <;> rfl

/-- Filtering a translated list with a translated predicate is translating
the filtered list. -/
theorem filter_translate (t : Vec2) (p q : Body → Bool)
    (hpq : ∀ b, p (Body.translate t b) = q b) (l : List Body) :
    (l.map (Body.translate t)).filter p = (l.filter q).map (Body.translate t) := by
  rw [List.filter_map]
  congr 1
  exact List.filter_congr fun b _ => hpq b

/-- `make_node` commutes with translating the bodies and the extents. -/
theorem make_node_translate (t : Vec2) :
    ∀ (fuel : ℕ) (pts : List Body) (x0 x1 y0 y1 : ℝ),
      make_node fuel (pts.map (Body.translate t))
          (x0 + t.x, x1 + t.x) (y0 + t.y, y1 + t.y)
        = (make_node fuel pts (x0, x1) (y0, y1)).map (Option.map (QuadNode.translate t)) := by
  intro fuel
  induction fuel with
  | zero =>
    intro pts x0 x1 y0 y1
    match pts with
    | [] => simp [make_node]
    | [b] => simp [make_node]
    | _ :: _ :: _ => simp [make_node]
  | succ fuel ih =>
    intro pts x0 x1 y0 y1
    match pts with
    | [] => simp [make_node]
    | [b] => simp [make_node]
    | p1 :: p2 :: rest =>
      simp only [List.map_cons]
      rw [make_node]
      rw [make_node]
      have hdx : (x0 + t.x + (x1 + t.x)) / 2 = (x0 + x1) / 2 + t.x := by ring
      have hdy : (y0 + t.y + (y1 + t.y)) / 2 = (y0 + y1) / 2 + t.y := by ring
      rw [hdx, hdy]
      have hfsw := filter_translate t
        (fun p => decide (p.pos.x < (x0 + x1) / 2 + t.x ∧ p.pos.y < (y0 + y1) / 2 + t.y))
        (fun p => decide (p.pos.x < (x0 + x1) / 2 ∧ p.pos.y < (y0 + y1) / 2))
        (fun b => by simp) (p1 :: p2 :: rest)
      have hfse := filter_translate t
        (fun p => decide ((x0 + x1) / 2 + t.x ≤ p.pos.x ∧ p.pos.y < (y0 + y1) / 2 + t.y))
        (fun p => decide ((x0 + x1) / 2 ≤ p.pos.x ∧ p.pos.y < (y0 + y1) / 2))
        (fun b => by simp) (p1 :: p2 :: rest)
      have hfnw := filter_translate t
        (fun p => decide (p.pos.x < (x0 + x1) / 2 + t.x ∧ (y0 + y1) / 2 + t.y ≤ p.pos.y))
        (fun p => decide (p.pos.x < (x0 + x1) / 2 ∧ (y0 + y1) / 2 ≤ p.pos.y))
        (fun b => by simp) (p1 :: p2 :: rest)
      have hfne := filter_translate t
        (fun p => decide ((x0 + x1) / 2 + t.x ≤ p.pos.x ∧ (y0 + y1) / 2 + t.y ≤ p.pos.y))
        (fun p => decide ((x0 + x1) / 2 ≤ p.pos.x ∧ (y0 + y1) / 2 ≤ p.pos.y))
        (fun b => by simp) (p1 :: p2 :: rest)
      simp only [List.map_cons] at hfsw hfse hfnw hfne
      rw [hfsw, hfse, hfnw, hfne]
      rw [ih ((p1 :: p2 :: rest).filter
          fun p => decide (p.pos.x < (x0 + x1) / 2 ∧ p.pos.y < (y0 + y1) / 2)) x0 ((x0 + x1) / 2) y0 ((y0 + y1) / 2)]
      rw [ih ((p1 :: p2 :: rest).filter
          fun p => decide ((x0 + x1) / 2 ≤ p.pos.x ∧ p.pos.y < (y0 + y1) / 2)) ((x0 + x1) / 2) x1 y0 ((y0 + y1) / 2)]
      rw [ih ((p1 :: p2 :: rest).filter
          fun p => decide (p.pos.x < (x0 + x1) / 2 ∧ (y0 + y1) / 2 ≤ p.pos.y)) x0 ((x0 + x1) / 2) ((y0 + y1) / 2) y1]
      rw [ih ((p1 :: p2 :: rest).filter
          fun p => decide ((x0 + x1) / 2 ≤ p.pos.x ∧ (y0 + y1) / 2 ≤ p.pos.y)) ((x0 + x1) / 2) x1 ((y0 + y1) / 2) y1]
      simp only [opt_map_bind, opt_bind_map, QuadInterior.new_translate4,
        Option.map_map, Function.comp_def, Option.map_some']

/-- Minima shift with a common offset. -/
theorem listMin_shift (c : ℝ) (x : ℝ) :
    ∀ l : List ℝ, listMin ((x :: l).map fun v => v + c) = listMin (x :: l) + c := by
  have key : ∀ (l : List ℝ) (a : ℝ),
      (l.map fun v => v + c).foldl min (a + c) = l.foldl min a + c := by
    intro l
    induction l with
    | nil => intro a; simp [listMin]
    | cons b l ihl =>
      intro a
      simp only [List.map_cons, List.foldl_cons]
      rw [min_add_add_right, ihl]
  intro l
  simp only [List.map_cons, listMin]
  exact key l x

/-- Maxima shift with a common offset. -/
theorem listMax_shift (c : ℝ) (x : ℝ) :
    ∀ l : List ℝ, listMax ((x :: l).map fun v => v + c) = listMax (x :: l) + c := by
  have key : ∀ (l : List ℝ) (a : ℝ),
      (l.map fun v => v + c).foldl max (a + c) = l.foldl max a + c := by
    intro l
    induction l with
    | nil => intro a; simp [listMax]
    | cons b l ihl =>
      intro a
      simp only [List.map_cons, List.foldl_cons]
      rw [max_add_add_right, ihl]
  intro l
  simp only [List.map_cons, listMax]
  exact key l x

/-- `tree_from_points` commutes with translating every body. -/
theorem tree_from_points_translate (t : Vec2) (fuel : ℕ) (pts : List Body) :
    tree_from_points fuel (pts.map (Body.translate t))
      = (tree_from_points fuel pts).map (QuadNode.translate t) := by
  match pts with
  | [] => simp [tree_from_points]
  | p :: ps =>
    simp only [List.map_cons]
    rw [tree_from_points, tree_from_points]
    have hxs : (Body.translate t p :: ps.map (Body.translate t)).map (fun b => b.pos.x)
        = (p :: ps).map fun b => b.pos.x + t.x := by
      simp
    have hys : (Body.translate t p :: ps.map (Body.translate t)).map (fun b => b.pos.y)
        = (p :: ps).map fun b => b.pos.y + t.y := by
      simp
    have hxs' : (p :: ps).map (fun b => b.pos.x + t.x)
        = ((p :: ps).map fun b => b.pos.x).map fun v => v + t.x := by
      simp
    have hys' : (p :: ps).map (fun b => b.pos.y + t.y)
        = ((p :: ps).map fun b => b.pos.y).map fun v => v + t.y := by
      simp
    rw [hxs, hys, hxs', hys']
    simp only [List.map_cons]
    have hminx := listMin_shift t.x (p.pos.x) (ps.map fun b => b.pos.x)
    have hmaxx := listMax_shift t.x (p.pos.x) (ps.map fun b => b.pos.x)
    have hminy := listMin_shift t.y (p.pos.y) (ps.map fun b => b.pos.y)
    have hmaxy := listMax_shift t.y (p.pos.y) (ps.map fun b => b.pos.y)
    simp only [List.map_cons] at hminx hmaxx hminy hmaxy
    rw [hminx, hmaxx, hminy, hmaxy]
    have hmk := make_node_translate t fuel (p :: ps)
    simp only [List.map_cons] at hmk
    rw [hmk]
    simp only [opt_map_bind, opt_bind_map, id_eq]

/-- C9: building the tree from bodies all shifted by `t` and querying at the
query point shifted by `t` yields exactly the same potential and gravity as
the unshifted computation — no absolute-position dependence beyond relative
offsets. -/
theorem C9_translation_invariance (fuel : ℕ) (pts : List Body) (t pos : Vec2)
    (uq : Bool) (acc : ℝ) :
    ((tree_from_points fuel (pts.map (Body.translate t))).map
        fun n => n.potential_at (pos + t) uq acc)
      = ((tree_from_points fuel pts).map fun n => n.potential_at pos uq acc) ∧
    ((tree_from_points fuel (pts.map (Body.translate t))).map
        fun n => n.gravity_at (pos + t) uq acc)
      = ((tree_from_points fuel pts).map fun n => n.gravity_at pos uq acc) := by
  rw [tree_from_points_translate]
  cases tree_from_points fuel pts with
  | none => exact ⟨rfl, rfl⟩
  | some n =>
    constructor
    · simp only [Option.map_some']
      rw [potential_at_translate]
    · simp only [Option.map_some']
      rw [gravity_at_translate]

end Fastgravity
